import Mathlib

/- Shallow embedding of the geometry-materialising output stage of osm2pgsql
   (src/output-pgsql.cpp).  Strings are modelled as lists of characters, the
   style file as a list of input lines, database effects as explicit event
   lists, and the external collaborators (tag transform, geometry builder,
   middle store, expiry probe) as function parameters, exactly as the source
   consumes their results. -/

namespace OsmPgsql

/- ### Character-list utilities mirroring the C string handling -/

/-- Whitespace characters that separate sscanf conversions. -/
def isSpaceChar (c : Char) : Bool :=
  c = ' ' || c = '\t' || c = '\n' || c = '\r' || c = Char.ofNat 11 || c = Char.ofNat 12

/-- startsChars pre s: s begins with the character sequence pre
(strncmp(s, pre, strlen(pre)) == 0). -/
def startsChars : List Char → List Char → Bool
  | [], _ => true
  | _ :: _, [] => false
  | p :: ps, c :: cs => p = c && startsChars ps cs

/-- containsSub needle hay: needle occurs contiguously inside hay (C strstr). -/
def containsSub (needle : List Char) : List Char → Bool
  | [] => needle.isEmpty
  | c :: cs => startsChars needle (c :: cs) || containsSub needle cs

/-- Cut the line at the first '#', the comment handling of read_style_file. -/
def stripComment (l : List Char) : List Char := l.takeWhile (fun c => !(c = '#'))

/-- Read at most n leading non-whitespace characters: the width limit of one
%Ns conversion.  Returns the token and the unread remainder. -/
def takeTok : Nat → List Char → List Char × List Char
  | 0, l => ([], l)
  | _ + 1, [] => ([], [])
  | n + 1, c :: rest =>
    if isSpaceChar c then ([], c :: rest)
    else
      let p := takeTok n rest
      (c :: p.1, p.2)

/-- sscanf(buffer, "%23s %63s %23s %127s", ...): for each conversion skip
whitespace and read a width-limited token; stop at the first conversion that
reads nothing.  The result list length is the sscanf return value. -/
def scanFields : List Nat → List Char → List (List Char)
  | [], _ => []
  | w :: ws, l =>
    let l1 := l.dropWhile isSpaceChar
    let p := takeTok w l1
    if p.1 = [] then [] else p.1 :: scanFields ws p.2

/-- The per-line field scan of read_style_file: comment strip, then the four
width-limited conversions 23/63/23/127. -/
def scanLine (l : List Char) : List (List Char) :=
  scanFields [23, 63, 23, 127] (stripComment l)

/- ### Flag-column tokenisation (strtok(flags, ",\r\n")) -/

/-- The delimiter set of the strtok call splitting the flags column. -/
def isFlagDelim (c : Char) : Bool := c = ',' || c = '\r' || c = '\n'

/-- Split into delimiter-separated groups, keeping empty groups. -/
def splitTok : List Char → List (List Char)
  | [] => [[]]
  | c :: rest =>
    match splitTok rest with
    | g :: gs => if isFlagDelim c then [] :: g :: gs else (c :: g) :: gs
    | [] => [[]]

/-- The token sequence produced by repeated strtok calls (no empty tokens). -/
def strtokSplit (l : List Char) : List (List Char) :=
  (splitTok l).filter (fun t => !t.isEmpty)

/-- The C-string view of the flags buffer after strtok has tokenised it:
strtok writes a NUL over the delimiter that closes the first token, so a later
read of the buffer sees only any leading delimiters plus the first token. -/
def mutateBuf (b : List Char) : List Char :=
  b.takeWhile isFlagDelim ++ (b.dropWhile isFlagDelim).takeWhile (fun d => !isFlagDelim d)

/-- Modelled from the spec: the flag bits of taginfo_impl.hpp (not under src/),
a set over POLYGON, LINEAR, NOCACHE, DELETE, PHSTORE encoded as distinct bits;
read_style_file only tests whole-mask equality with the DELETE bit and ors the
bits together, so any injective bit assignment is behaviourally equal. -/
def flagValue (t : List Char) : Nat :=
  if t = ("polygon".data) then 1
  else if t = ("linear".data) then 2
  else if t = ("nocache".data) then 4
  else if t = ("delete".data) then 8
  else if t = ("phstore".data) then 16
  else 0

/-- Accumulate the flag mask over the strtok tokens of a flags buffer; a token
matching no known flag contributes nothing (only a warning is printed). -/
def flagsValue (b : List Char) : Nat :=
  (strtokSplit b).foldl (fun a t => a ||| flagValue t) 0

/- ### Style rule table (read_style_file) -/

inductive OsmType where
  | node
  | way
deriving DecidableEq

structure taginfo where
  name : List Char
  type : List Char
  flags : Nat
deriving DecidableEq

deriving instance DecidableEq for Except

/-- The fatal diagnostics read_style_file can terminate the import with. -/
inductive StyleFatal where
  | fewFields (lineno fields : Nat)
  | wildcardNonDelete (name : List Char)
  | weirdLine (lineno : Nat)
  | noValidLines
deriving DecidableEq

def nodeChars : List Char := "node".data
def wayChars : List Char := "way".data
def wayAreaChars : List Char := "way_area".data

/-- name contains '?' or '*'. -/
def hasWildcard (n : List Char) : Bool := n.any (fun c => c = '?' || c = '*')

/-- The read_style_file loop.  buf is the current content of the static flags
buffer: sscanf only assigns it when a fourth field is present, so a 3-field
line re-tokenises the (strtok-mutated) buffer left by an earlier line; buf0 in
read_style_file stands for its initial (indeterminate) content.  lineno is the
1-based number of the next line, numRead the count of valid lines so far. -/
def read_style_file_aux :
    List (List Char) → Nat → Nat → List Char → List (OsmType × taginfo) → Bool →
    Except StyleFatal (List (OsmType × taginfo) × Bool)
  | [], _, numRead, _, acc, ewa =>
    if numRead = 0 then .error .noValidLines else .ok (acc, ewa)
  | line :: rest, lineno, numRead, buf, acc, ewa =>
    match scanLine line with
    | [] => read_style_file_aux rest (lineno + 1) numRead buf acc ewa
    | [_] => .error (.fewFields lineno 1)
    | [_, _] => .error (.fewFields lineno 2)
    | _osmtype :: tag :: datatype :: more =>
      let fb :=
        match more with
        | [] => (flagsValue buf, mutateBuf buf)
        | f :: _ => (flagsValue f, mutateBuf f)
      if hasWildcard tag && !(decide (fb.1 = 8)) then .error (.wildcardNonDelete tag)
      else
        let ewa' := if decide (tag = wayAreaChars) && decide (fb.1 = 8) then false else ewa
        let keptN := containsSub nodeChars _osmtype
        let keptW := containsSub wayChars _osmtype
        let acc' := acc ++ (if keptN then [(OsmType.node, ⟨tag, datatype, fb.1⟩)] else [])
                        ++ (if keptW then [(OsmType.way, ⟨tag, datatype, fb.1⟩)] else [])
        if !keptN && !keptW then .error (.weirdLine lineno)
        else read_style_file_aux rest (lineno + 1) (numRead + 1) fb.2 acc' ewa'

/-- read_style_file on the given content lines, with buf0 the initial content
of the flags buffer.  Returns the export entries in the order added together
with enable_way_area, or the fatal diagnostic. -/
def read_style_file (lines : List (List Char)) (buf0 : List Char) :
    Except StyleFatal (List (OsmType × taginfo) × Bool) :=
  read_style_file_aux lines 1 0 buf0 [] true

def styleIsErr {α : Type} : Except StyleFatal α → Bool
  | .error _ => true
  | .ok _ => false

/- ### A per-line denotation of the style scan, for stating parse properties -/

/-- What the scanner extracts from one line: the field count, the tag name
field, the osm type field, and the effective flag mask. -/
structure LineInfo where
  fields : Nat
  name : List Char
  osmtype : List Char
  flags : Nat
deriving DecidableEq

/-- The LineInfo of one line given the current flags-buffer content, and the
buffer content afterwards.  Mirrors exactly the field handling of
read_style_file_aux, but never stops. -/
def lineInfoOf (buf : List Char) (line : List Char) : LineInfo × List Char :=
  match scanLine line with
  | [] => (⟨0, [], [], 0⟩, buf)
  | [o] => (⟨1, [], o, 0⟩, buf)
  | [o, t] => (⟨2, t, o, 0⟩, buf)
  | o :: t :: _ :: more =>
    match more with
    | [] => (⟨3, t, o, flagsValue buf⟩, mutateBuf buf)
    | f :: _ => (⟨4, t, o, flagsValue f⟩, mutateBuf f)

/-- The scan denotation of every line of the input. -/
def styleTrace : List (List Char) → List Char → List LineInfo
  | [], _ => []
  | l :: rest, buf =>
    let p := lineInfoOf buf l
    p.1 :: styleTrace rest p.2

/-- The flags-buffer content after scanning the given lines. -/
def styleBufAfter : List (List Char) → List Char → List Char
  | [], b => b
  | l :: rest, b => styleBufAfter rest (lineInfoOf b l).2

/-- A non-blank line with fewer than 3 scanned fields. -/
def condA (tr : List LineInfo) : Bool :=
  tr.any (fun e => decide (0 < e.fields) && decide (e.fields < 3))

/-- An entry whose name holds a wildcard while its flag mask is not exactly
the DELETE bit. -/
def wildcardViolB (e : LineInfo) : Bool :=
  hasWildcard e.name && !(decide (e.flags = 8))

def condB (tr : List LineInfo) : Bool :=
  tr.any (fun e => decide (3 ≤ e.fields) && wildcardViolB e)

/-- A scanned entry whose osm type field names neither node nor way. -/
def typelessB (e : LineInfo) : Bool :=
  !(containsSub nodeChars e.osmtype) && !(containsSub wayChars e.osmtype)

def condC (tr : List LineInfo) : Bool :=
  tr.any (fun e => decide (3 ≤ e.fields) && typelessB e)

/-- Every line of the input is blank: zero valid lines can be parsed. -/
def condD (tr : List LineInfo) : Bool :=
  tr.all (fun e => decide (e.fields = 0))

/-- One line makes read_style_file terminate the import when reached. -/
def lineFatalB (e : LineInfo) : Bool :=
  (decide (0 < e.fields) && decide (e.fields < 3))
    || (decide (3 ≤ e.fields) && (wildcardViolB e || typelessB e))

/-- An entry that disables way_area: named way_area with flag mask exactly the
DELETE bit. -/
def condWayArea (tr : List LineInfo) : Bool :=
  tr.any (fun e => decide (3 ≤ e.fields) && decide (e.name = wayAreaChars) && decide (e.flags = 8))

/- ### Output tables, rows and effects -/

/-- The four destination tables (enum of output_pgsql_t). -/
inductive TableId where
  | t_point
  | t_line
  | t_poly
  | t_roads
deriving DecidableEq

/-- A keyval tag list; addItem pushes a new item onto it. -/
abbrev Tags := List (List Char × List Char)

def addItem (tags : Tags) (k v : List Char) : Tags := (k, v) :: tags

def hasKey (tags : Tags) (k : List Char) : Bool := tags.any (fun p => decide (p.1 = k))

/-- The observable database-side effects of the emitter.  write is a COPY row
(table, osm_id, tag columns, geometry WKT); deleteRow and pauseCopy are the
incremental-mode DML of table_t; the mark events are the id-tracker upserts;
resolveNodes records the nodes_get_list middle call of way_add. -/
inductive Event where
  | write (t : TableId) (osm_id : Int) (tags : Tags) (wkt : List Char)
  | deleteRow (t : TableId) (osm_id : Int)
  | pauseCopy (t : TableId)
  | markDone (id : Int)
  | markWayPending (id : Int)
  | markRelPending (id : Int)
  | resolveNodes (nds : List Int)
deriving DecidableEq

/-- WKT starts with POLYGON or MULTIPOLYGON: the post-build polygon test. -/
def isPolyWkt (w : List Char) : Bool :=
  startsChars ("POLYGON".data) w || startsChars ("MULTIPOLYGON".data) w

/-- The option fields of options_t that the emission paths read. -/
structure ModeOpts where
  slim : Bool
  droptemp : Bool
  proj_latlong : Bool
deriving DecidableEq

/-- Split threshold: 1 degree for PROJ_LATLONG, 100000 metres otherwise. -/
def split_at (o : ModeOpts) : ℚ := if o.proj_latlong then 1 else 100000

/-- External read-only collaborators: the expire-tiles existence probe
(expire->from_db, nonzero when the object previously overlapped an expired
tile) and the middle reverse lookup relations_using_way. -/
structure Mid where
  probe : TableId → Int → Bool
  relations_using_way : Int → List Int

/-- pgsql_delete_way_from_output: a no-op unless slim and not droptemp;
otherwise pause COPY on roads/line/poly, delete the roads row, and delete the
line and poly rows whose existence the expiry probe confirms. -/
def pgsql_delete_way_from_output (o : ModeOpts) (m : Mid) (osm_id : Int) : List Event :=
  if !o.slim then []
  else if o.droptemp then []
  else
    [.pauseCopy .t_roads, .pauseCopy .t_line, .pauseCopy .t_poly, .deleteRow .t_roads osm_id]
      ++ (if m.probe .t_line osm_id then [.deleteRow .t_line osm_id] else [])
      ++ (if m.probe .t_poly osm_id then [.deleteRow .t_poly osm_id] else [])

/-- The shared emission loop over the built geometries (the wkt loop of
pgsql_out_way, and the first wkt loop of pgsql_out_relation with rowId = -id).
Each geometry carries its WKT and its builder area; a NULL or empty WKT is
skipped; a polygon-prefixed WKT goes to the poly table after the conditional
way_area injection mutates the shared tag list; any other WKT goes to the line
table and, when the roads flag is set, also to the roads table.  Returns the
events and the final (possibly mutated) tag list. -/
def emitLoop (enable : Bool) (fmt : ℚ → List Char) (roads : Bool) (rowId : Int) :
    List (List Char × ℚ) → Tags → List Event × Tags
  | [], tags => ([], tags)
  | (w, a) :: rest, tags =>
    if w = [] then emitLoop enable fmt roads rowId rest tags
    else if isPolyWkt w then
      let tags' := if decide (0 < a) && enable then addItem tags wayAreaChars (fmt a) else tags
      let r := emitLoop enable fmt roads rowId rest tags'
      (.write .t_poly rowId tags' w :: r.1, r.2)
    else
      let r := emitLoop enable fmt roads rowId rest tags
      (.write .t_line rowId tags w :: ((if roads then [.write .t_roads rowId tags w] else []) ++ r.1), r.2)

/-- The make_boundary second pass of pgsql_out_relation: re-build with
make_polygon = 1 and emit only the polygon-prefixed results to the poly table
(non-polygon WKTs of this pass are dropped). -/
def boundaryLoop (enable : Bool) (fmt : ℚ → List Char) (id : Int) :
    List (List Char × ℚ) → Tags → List Event × Tags
  | [], tags => ([], tags)
  | (w, a) :: rest, tags =>
    if w = [] then boundaryLoop enable fmt id rest tags
    else if isPolyWkt w then
      let tags' := if decide (0 < a) && enable then addItem tags wayAreaChars (fmt a) else tags
      let r := boundaryLoop enable fmt id rest tags'
      (.write .t_poly (-id) tags' w :: r.1, r.2)
    else boundaryLoop enable fmt id rest tags

/-- The per-call results of the external collaborators that pgsql_out_way
consumes: the tag transform verdict filter_way_tags(tags) = (filter, polygon,
roads), and the builder get_wkt_split result as a function of the polygon flag
and split threshold, each geometry paired with its area. -/
structure WayIn where
  tt : Bool × Bool × Bool
  build : Bool → ℚ → List (List Char × ℚ)

/-- pgsql_out_way: when exists, first delete prior rows and re-mark the
relations using this way as pending; then drop if the filter rejects the
tags, else build with the pre-build polygon flag and emit each geometry by
its post-build WKT class. -/
def pgsql_out_way (o : ModeOpts) (m : Mid) (enable : Bool) (fmt : ℚ → List Char)
    (wi : WayIn) (id : Int) (tags : Tags) (exists_ : Bool) : List Event :=
  (if exists_ then
      pgsql_delete_way_from_output o m id ++ (m.relations_using_way id).map .markRelPending
    else [])
    ++ (if wi.tt.1 then []
        else (emitLoop enable fmt wi.tt.2.2 id (wi.build wi.tt.2.1 (split_at o)) tags).1)

/-- The supersession loop of pgsql_out_relation: for (i=0; xcount[i]; i++),
stopping at the first zero node count (the caller appends a zero sentinel);
each member flagged superseeded is marked done and its output rows deleted. -/
def supersede (o : ModeOpts) (m : Mid) : List Nat → List Bool → List Int → List Event
  | c :: cs, s :: ss, x :: xs =>
    if c = 0 then []
    else (if s then Event.markDone x :: pgsql_delete_way_from_output o m x else [])
      ++ supersede o m cs ss xs
  | _, _, _ => []

/-- The per-call external results pgsql_out_relation consumes: the
filter_rel_member_tags verdict (none when the relation is dropped, otherwise
the members_superseeded flags and (make_boundary, make_polygon, roads)), and
the builder.build result as a function of the make_polygon argument and split
threshold. -/
structure RelIn where
  fmtags : Option (List Bool × (Bool × Bool × Bool))
  build : Bool → ℚ → List (List Char × ℚ)

def relRoads (r : RelIn) : Bool :=
  match r.fmtags with
  | none => false
  | some (_, (_, _, rd)) => rd

/-- pgsql_out_relation: zero members or a rejecting member-tag filter emit
nothing; otherwise build with make_polygon, stop if no geometry resulted,
emit every geometry under osm_id -id, then if make_polygon run the
supersession loop, and if make_boundary run the polygon-only second build
(on the tag list as mutated by the first loop). -/
def pgsql_out_relation (o : ModeOpts) (m : Mid) (enable : Bool) (fmt : ℚ → List Char)
    (ri : RelIn) (id : Int) (rel_tags : Tags) (member_count : Nat)
    (xcount : List Nat) (xid : List Int) : List Event :=
  if member_count = 0 then []
  else
    match ri.fmtags with
    | none => []
    | some (sup, (make_boundary, make_polygon, roads)) =>
      let g1 := ri.build make_polygon (split_at o)
      if g1 = [] then []
      else
        let e1 := emitLoop enable fmt roads (-id) g1 rel_tags
        e1.1 ++ (if make_polygon then supersede o m xcount sup xid else [])
          ++ (if make_boundary then (boundaryLoop enable fmt id (ri.build true (split_at o)) e1.2).1 else [])

/-- way_add: apply the way tag filter; a kept polygon way is only marked
pending; a kept linear way resolves its node list through the middle and runs
pgsql_out_way with exists = 0; a dropped way does nothing. -/
def way_add (o : ModeOpts) (m : Mid) (enable : Bool) (fmt : ℚ → List Char)
    (tt : Bool × Bool × Bool) (build : Bool → ℚ → List (List Char × ℚ))
    (id : Int) (nds : List Int) (tags : Tags) : List Event :=
  (if !tt.1 && tt.2.1 then [Event.markWayPending id] else [])
    ++ (if !tt.2.1 && !tt.1 then
          Event.resolveNodes nds :: pgsql_out_way o m enable fmt ⟨tt, build⟩ id tags false
        else [])

/-- The fatal exit of the diff entry points outside slim mode. -/
inductive DiffFatal where
  | notSlim
deriving DecidableEq

/-- way_delete: fatal outside slim mode, else delete the way's output rows. -/
def way_delete (o : ModeOpts) (m : Mid) (osm_id : Int) : Except DiffFatal (List Event) :=
  if !o.slim then .error .notSlim
  else .ok (pgsql_delete_way_from_output o m osm_id)

/-- The tracker and DML event kinds the supersession step can produce. -/
def isTrackOrDel : Event → Bool
  | .markDone _ => true
  | .deleteRow _ _ => true
  | .pauseCopy _ => true
  | _ => false

/-- The supersession effect as the spec describes it: over the members up to
(excluding) the first zero node count, every member flagged superseeded is
marked done and its rows deleted; no other member is touched. -/
def supersedeSpec (o : ModeOpts) (m : Mid) (cs : List Nat) (ss : List Bool) (xs : List Int) :
    List Event :=
  ((cs.zip (ss.zip xs)).takeWhile (fun t => !(decide (t.1 = 0)))).flatMap
    (fun t => if t.2.1 then Event.markDone t.2.2 :: pgsql_delete_way_from_output o m t.2.2 else [])

/-- The supersession loop with its table deletions stripped: only the
ways_done marks remain. -/
def marksOnly : List Nat → List Bool → List Int → List Event
  | c :: cs, s :: ss, x :: xs =>
    if c = 0 then []
    else (if s then [Event.markDone x] else []) ++ marksOnly cs ss xs
  | _, _, _ => []

/- ### The deferred-iteration driver (way_cb_func / rel_cb_func) -/

/-- Modelled from the spec: pop_mark of the pgsql_id_tracker (repository code
not under src/) removes and returns the smallest pending id, or the sentinel
maximum value when the tracker is empty.  The sentinel is rendered as none:
it compares above every real id and equals none of them, exactly as the
numeric maximum does against real OSM ids. -/
def pop_mark : List Int → Option Int × List Int
  | [] => (none, [])
  | x :: xs => (some x, xs)

/-- d < bound, where bound none stands for the numeric maximum sentinel that
every real id is below. -/
def oLtB (d : Int) : Option Int → Bool
  | none => true
  | some u => decide (d < u)

/-- run_internal_until(id): while the internal cursor is below the bound,
fetch the deferred id from the middle, process it, and advance the cursor via
pop_mark.  procDef yields the events of processing one deferred id (for ways:
nothing when the middle misses it or ways_done has it marked).  Returns the
(id, events) visits, the new cursor and the remaining pending list. -/
def run_internal_until (procDef : Int → List Event) (bound : Option Int) :
    Option Int → List Int → List (Int × List Event) × Option Int × List Int
  | none, pending => ([], none, pending)
  | some d, [] =>
    if oLtB d bound then ([(d, procDef d)], none, []) else ([], some d, [])
  | some d, x :: xs =>
    if oLtB d bound then
      let r := run_internal_until procDef bound (some x) xs
      ((d, procDef d) :: r.1, r.2)
    else ([], some d, x :: xs)

/-- The callback sequence: one operator() call per upstream id (run the
internal loop up to the id, advance the cursor when it equals the id, then
process the upstream id via procUp), and a final finish() that drains the
remaining deferred ids against the sentinel. -/
def cb_loop (procDef procUp : Int → List Event) :
    List Int → Option Int → List Int → List (Int × List Event)
  | [], nd, pending => (run_internal_until procDef none nd pending).1
  | u :: us, nd, pending =>
    let r := run_internal_until procDef (some u) nd pending
    let s := if r.2.1 = some u then pop_mark r.2.2 else r.2
    r.1 ++ (u, procUp u) :: cb_loop procDef procUp us s.1 s.2

/-- A whole deferred-iteration pass: the constructor pops the first pending
id, then the upstream callbacks run in order, then finish(). -/
def cb_driver (procDef procUp : Int → List Event) (upstream pending : List Int) :
    List (Int × List Event) :=
  let s := pop_mark pending
  cb_loop procDef procUp upstream s.1 s.2

/-- The ids the pass processes, in processing order. -/
def cb_visits (procDef procUp : Int → List Event) (upstream pending : List Int) : List Int :=
  (cb_driver procDef procUp upstream pending).map Prod.fst

/-- The merged id sequence the driver is meant to produce: before each
upstream id all strictly smaller deferred ids, a deferred id equal to the
upstream id silently dropped, and after the last upstream id the whole
remainder. -/
def mergeAux : List Int → List Int → List Int
  | [], l => l
  | u :: us, l =>
    let pre := l.takeWhile (fun x => decide (x < u))
    let rest := l.dropWhile (fun x => decide (x < u))
    let rest' := match rest with
      | [] => []
      | x :: xs => if x = u then xs else x :: xs
    pre ++ u :: mergeAux us rest'

def optList : Option Int → List Int
  | none => []
  | some d => [d]

/- ### The ways pass instantiated with pgsql_out_way and the done tracker -/

/-- The whole-pass inputs of the ways deferred iteration: the emission
parameters, the is_marked view of ways_done, and the per-id external data
(middle lookup for deferred ids — none when ways_get misses — and the
upstream-delivered tags and transform/build results). -/
structure WayPassEnv where
  o : ModeOpts
  m : Mid
  enable : Bool
  fmt : ℚ → List Char
  done : Int → Bool
  midWays : Int → Option (WayIn × Tags)
  upWays : Int → WayIn × Tags

/-- Processing one deferred way id: nothing when the middle misses it;
nothing when ways_done has it marked; otherwise pgsql_out_way. -/
def wayProcDef (e : WayPassEnv) (ex : Bool) (id : Int) : List Event :=
  match e.midWays id with
  | none => []
  | some (wi, tags) =>
    if e.done id then [] else pgsql_out_way e.o e.m e.enable e.fmt wi id tags ex

/-- Processing one upstream way id in operator(): suppressed when ways_done
has it marked, otherwise pgsql_out_way. -/
def wayProcUp (e : WayPassEnv) (ex : Bool) (id : Int) : List Event :=
  if e.done id then []
  else
    let p := e.upWays id
    pgsql_out_way e.o e.m e.enable e.fmt p.1 id p.2 ex

/-- All events of one ways pass. -/
def way_pass_events (e : WayPassEnv) (ex : Bool) (upstream pending : List Int) : List Event :=
  (cb_driver (wayProcDef e ex) (wayProcUp e ex) upstream pending).flatMap Prod.snd

/- ### Style parser lemmas -/

theorem condA_cons (e : LineInfo) (tr : List LineInfo) :
    condA (e :: tr) = ((decide (0 < e.fields) && decide (e.fields < 3)) || condA tr) := by
  simp [condA]

theorem condB_cons (e : LineInfo) (tr : List LineInfo) :
    condB (e :: tr) = ((decide (3 ≤ e.fields) && wildcardViolB e) || condB tr) := by
  simp [condB]

theorem condC_cons (e : LineInfo) (tr : List LineInfo) :
    condC (e :: tr) = ((decide (3 ≤ e.fields) && typelessB e) || condC tr) := by
  simp [condC]

theorem condD_cons (e : LineInfo) (tr : List LineInfo) :
    condD (e :: tr) = (decide (e.fields = 0) && condD tr) := by
  simp [condD]

theorem read_aux_isErr (lines : List (List Char)) :
    ∀ (lineno numRead : Nat) (buf : List Char) (acc : List (OsmType × taginfo)) (ewa : Bool),
    styleIsErr (read_style_file_aux lines lineno numRead buf acc ewa)
      = (condA (styleTrace lines buf) || condB (styleTrace lines buf)
          || condC (styleTrace lines buf)
          || (decide (numRead = 0) && condD (styleTrace lines buf))) := by
  induction lines with
  | nil =>
    intro lineno numRead buf acc ewa
    by_cases h : numRead = 0 <;>
      simp [read_style_file_aux, styleTrace, condA, condB, condC, condD, styleIsErr, h]
  | cons l rest ih =>
    intro lineno numRead buf acc ewa
    rcases hscan : scanLine l with _ | ⟨o, _ | ⟨t, _ | ⟨d, more⟩⟩⟩
    · simp only [read_style_file_aux, hscan, styleTrace, lineInfoOf]
      rw [ih]
      simp [condA_cons, condB_cons, condC_cons, condD_cons, wildcardViolB, typelessB]
    · simp [read_style_file_aux, hscan, styleTrace, lineInfoOf, styleIsErr,
        condA_cons, condB_cons, condC_cons, condD_cons]
    · simp [read_style_file_aux, hscan, styleTrace, lineInfoOf, styleIsErr,
        condA_cons, condB_cons, condC_cons, condD_cons]
    · rcases more with _ | ⟨f, more'⟩
      · simp only [read_style_file_aux, hscan, styleTrace, lineInfoOf]
        by_cases hw : (hasWildcard t && !(decide (flagsValue buf = 8))) = true
        · simp [hw, styleIsErr, condA_cons, condB_cons, condC_cons, condD_cons, wildcardViolB]
        · by_cases hweird : (!containsSub nodeChars o && !containsSub wayChars o) = true
          · simp [hw, hweird, styleIsErr, condA_cons, condB_cons, condC_cons, condD_cons,
              wildcardViolB, typelessB]
          · simp only [hw, hweird, Bool.false_eq_true, if_false, if_neg]
            rw [ih]
            simp [condA_cons, condB_cons, condC_cons, condD_cons, wildcardViolB, typelessB,
              hw, hweird]
      · simp only [read_style_file_aux, hscan, styleTrace, lineInfoOf]
        by_cases hw : (hasWildcard t && !(decide (flagsValue f = 8))) = true
        · simp [hw, styleIsErr, condA_cons, condB_cons, condC_cons, condD_cons, wildcardViolB]
        · by_cases hweird : (!containsSub nodeChars o && !containsSub wayChars o) = true
          · simp [hw, hweird, styleIsErr, condA_cons, condB_cons, condC_cons, condD_cons,
              wildcardViolB, typelessB]
          · simp only [hw, hweird, Bool.false_eq_true, if_false, if_neg]
            rw [ih]
            simp [condA_cons, condB_cons, condC_cons, condD_cons, wildcardViolB, typelessB,
              hw, hweird]

/-- Claim C7 (amended): read_style_file terminates the import exactly when the
input has a non-blank line scanning to fewer than 3 fields, or an entry whose
name holds a wildcard while its flag mask is not exactly DELETE, or a scanned
entry whose osm type field names neither node nor way, or every line is blank
(zero valid lines); unknown flag tokens are warned about and ignored, never
fatal (they are absent from the right-hand side). -/
theorem style_fatal_exactly (lines : List (List Char)) (buf0 : List Char) :
    styleIsErr (read_style_file lines buf0)
      = (condA (styleTrace lines buf0) || condB (styleTrace lines buf0)
          || condC (styleTrace lines buf0) || condD (styleTrace lines buf0)) := by
  have h := read_aux_isErr lines 1 0 buf0 [] true
  simpa [read_style_file] using h

/-- Claim C7 counterexample: the line "foo highway text linear" is well formed
by the three spec-listed conditions (3+ fields, no wildcard entry, a valid
line present), yet read_style_file terminates the import on it. -/
theorem style_fatal_unlisted_case :
    styleIsErr (read_style_file [("foo highway text linear".data)] []) = true
      ∧ condA (styleTrace [("foo highway text linear".data)] []) = false
      ∧ condB (styleTrace [("foo highway text linear".data)] []) = false
      ∧ condD (styleTrace [("foo highway text linear".data)] []) = false := by
  decide

theorem condWayArea_cons (e : LineInfo) (tr : List LineInfo) :
    condWayArea (e :: tr)
      = ((decide (3 ≤ e.fields) && decide (e.name = wayAreaChars) && decide (e.flags = 8))
          || condWayArea tr) := by
  simp [condWayArea]

theorem read_aux_ewa (lines : List (List Char)) :
    ∀ (lineno numRead : Nat) (buf : List Char) (acc : List (OsmType × taginfo)) (ewa : Bool)
      (exl : List (OsmType × taginfo)) (ewaOut : Bool),
    read_style_file_aux lines lineno numRead buf acc ewa = .ok (exl, ewaOut) →
    (ewaOut = false ↔ (ewa = false ∨ condWayArea (styleTrace lines buf) = true)) := by
  induction lines with
  | nil =>
    intro lineno numRead buf acc ewa exl ewaOut h
    by_cases hn : numRead = 0
    · simp [read_style_file_aux, hn] at h
    · simp [read_style_file_aux, hn] at h
      simp [h.2, styleTrace, condWayArea]
  | cons l rest ih =>
    intro lineno numRead buf acc ewa exl ewaOut h
    rcases hscan : scanLine l with _ | ⟨o, _ | ⟨t, _ | ⟨d, more⟩⟩⟩ <;>
      rw [read_style_file_aux, hscan] at h
    · have := ih (lineno + 1) numRead buf acc ewa exl ewaOut h
      simp only [styleTrace, lineInfoOf, hscan]
      simpa [condWayArea_cons] using this
    · exact absurd h (by simp)
    · exact absurd h (by simp)
    · rcases more with _ | ⟨f, more'⟩
      · simp only [] at h
        by_cases hw : (hasWildcard t && !(decide (flagsValue buf = 8))) = true
        · rw [if_pos hw] at h; exact absurd h (by simp)
        · rw [if_neg hw] at h
          by_cases hweird : (!containsSub nodeChars o && !containsSub wayChars o) = true
          · rw [if_pos hweird] at h; exact absurd h (by simp)
          · rw [if_neg hweird] at h
            have := ih _ _ _ _ _ exl ewaOut h
            simp only [styleTrace, lineInfoOf, hscan]
            rw [this]
            by_cases hwa : (decide (t = wayAreaChars) && decide (flagsValue buf = 8)) = true
            · simp [hwa, condWayArea_cons]
            · simp [hwa, condWayArea_cons]
      · simp only [] at h
        by_cases hw : (hasWildcard t && !(decide (flagsValue f = 8))) = true
        · rw [if_pos hw] at h; exact absurd h (by simp)
        · rw [if_neg hw] at h
          by_cases hweird : (!containsSub nodeChars o && !containsSub wayChars o) = true
          · rw [if_pos hweird] at h; exact absurd h (by simp)
          · rw [if_neg hweird] at h
            have := ih _ _ _ _ _ exl ewaOut h
            simp only [styleTrace, lineInfoOf, hscan]
            rw [this]
            by_cases hwa : (decide (t = wayAreaChars) && decide (flagsValue f = 8)) = true
            · simp [hwa, condWayArea_cons]
            · simp [hwa, condWayArea_cons]

theorem read_aux_append (pre : List (List Char)) :
    ∀ (rest : List (List Char)) (lineno numRead : Nat) (buf : List Char)
      (acc : List (OsmType × taginfo)) (ewa : Bool),
    (∀ e ∈ styleTrace pre buf, lineFatalB e = false) →
    ∃ (numRead' : Nat) (acc' : List (OsmType × taginfo)) (ewa' : Bool),
      read_style_file_aux (pre ++ rest) lineno numRead buf acc ewa
        = read_style_file_aux rest (lineno + pre.length) numRead' (styleBufAfter pre buf) acc' ewa' := by
  induction pre with
  | nil =>
    intro rest lineno numRead buf acc ewa _
    exact ⟨numRead, acc, ewa, by simp [styleBufAfter]⟩
  | cons l pre' ih =>
    intro rest lineno numRead buf acc ewa hfatal
    have hl : lineFatalB (lineInfoOf buf l).1 = false := by
      apply hfatal
      simp [styleTrace]
    have htail : ∀ e ∈ styleTrace pre' (lineInfoOf buf l).2, lineFatalB e = false := by
      intro e he
      apply hfatal
      simp [styleTrace, he]
    rcases hscan : scanLine l with _ | ⟨o, _ | ⟨t, _ | ⟨d, more⟩⟩⟩
    · simp only [lineInfoOf, hscan] at hl htail
      have := ih rest (lineno + 1) numRead buf acc ewa htail
      rcases this with ⟨n', a', e', heq⟩
      refine ⟨n', a', e', ?_⟩
      rw [List.cons_append, read_style_file_aux, hscan, heq]
      simp only [styleBufAfter, lineInfoOf, hscan, List.length_cons]
      congr 1
      omega
    · simp [lineInfoOf, hscan, lineFatalB] at hl
    · simp [lineInfoOf, hscan, lineFatalB] at hl
    · rcases more with _ | ⟨f, more'⟩
      · simp only [lineInfoOf, hscan] at hl htail
        have hparts : wildcardViolB ⟨3, t, o, flagsValue buf⟩ = false
            ∧ typelessB ⟨3, t, o, flagsValue buf⟩ = false := by
          simpa [lineFatalB] using hl
        have hw : (hasWildcard t && !(decide (flagsValue buf = 8))) = false := by
          have := hparts.1
          simpa [wildcardViolB] using this
        have hweird : (!containsSub nodeChars o && !containsSub wayChars o) = false := by
          have := hparts.2
          simpa [typelessB] using this
        rw [List.cons_append]
        simp only [read_style_file_aux, hscan, hw, hweird, Bool.false_eq_true, if_false]
        simp only [styleBufAfter, lineInfoOf, hscan, List.length_cons]
        have harith : lineno + (pre'.length + 1) = lineno + 1 + pre'.length := by omega
        rw [harith]
        exact ih rest (lineno + 1) (numRead + 1) (mutateBuf buf) _ _ htail
      · simp only [lineInfoOf, hscan] at hl htail
        have hparts : wildcardViolB ⟨4, t, o, flagsValue f⟩ = false
            ∧ typelessB ⟨4, t, o, flagsValue f⟩ = false := by
          simpa [lineFatalB] using hl
        have hw : (hasWildcard t && !(decide (flagsValue f = 8))) = false := by
          have := hparts.1
          simpa [wildcardViolB] using this
        have hweird : (!containsSub nodeChars o && !containsSub wayChars o) = false := by
          have := hparts.2
          simpa [typelessB] using this
        rw [List.cons_append]
        simp only [read_style_file_aux, hscan, hw, hweird, Bool.false_eq_true, if_false]
        simp only [styleBufAfter, lineInfoOf, hscan, List.length_cons]
        have harith : lineno + (pre'.length + 1) = lineno + 1 + pre'.length := by omega
        rw [harith]
        exact ih rest (lineno + 1) (numRead + 1) (mutateBuf f) _ _ htail

/-- Claim C9: a well-formed style line (3 or more scanned fields, no wildcard
violation) whose osm type field contains neither the substring node nor the
substring way is fatal: when every earlier line parses without a fatal
diagnostic, read_style_file stops with the weird-line diagnostic carrying that
line's 1-based number. -/
theorem weird_style_line_fatal (pre : List (List Char)) (l : List Char)
    (post : List (List Char)) (buf0 : List Char)
    (hpre : ∀ e ∈ styleTrace pre buf0, lineFatalB e = false)
    (hf : 3 ≤ ((lineInfoOf (styleBufAfter pre buf0) l).1).fields)
    (hw : wildcardViolB (lineInfoOf (styleBufAfter pre buf0) l).1 = false)
    (ht : typelessB (lineInfoOf (styleBufAfter pre buf0) l).1 = true) :
    read_style_file (pre ++ l :: post) buf0 = .error (.weirdLine (pre.length + 1)) := by
  obtain ⟨n', a', e', heq⟩ := read_aux_append pre (l :: post) 1 0 buf0 [] true hpre
  rw [read_style_file, heq]
  have harith : 1 + pre.length = pre.length + 1 := by omega
  rw [harith]
  rcases hscan : scanLine l with _ | ⟨o, _ | ⟨t, _ | ⟨d, more⟩⟩⟩ <;>
    simp only [lineInfoOf, hscan] at hf hw ht
  · omega
  · omega
  · omega
  · rcases more with _ | ⟨f, more'⟩ <;> simp only [] at hf hw ht
    · have hwB : (hasWildcard t && !(decide (flagsValue (styleBufAfter pre buf0) = 8))) = false := by
        simpa [wildcardViolB] using hw
      have htB : (!containsSub nodeChars o && !containsSub wayChars o) = true := by
        simpa [typelessB] using ht
      rw [read_style_file_aux, hscan]
      simp [hwB, htB]
    · have hwB : (hasWildcard t && !(decide (flagsValue f = 8))) = false := by
        simpa [wildcardViolB] using hw
      have htB : (!containsSub nodeChars o && !containsSub wayChars o) = true := by
        simpa [typelessB] using ht
      rw [read_style_file_aux, hscan]
      simp [hwB, htB]

/-- Witness for weird_style_line_fatal at a concrete input. -/
theorem weird_style_line_fatal_witness :
    read_style_file ([] ++ ("foo highway text linear".data) :: []) []
      = .error (.weirdLine (List.length ([] : List (List Char)) + 1)) := by
  apply weird_style_line_fatal
  · intro e he
    simp [styleTrace] at he
  · decide
  · decide
  · decide

/- ### Emission loop lemmas -/

theorem emitLoop_write_mem (enable : Bool) (fmt : ℚ → List Char) (roads : Bool) (rid : Int)
    (g : List (List Char × ℚ)) :
    ∀ (tags : Tags) (t : TableId) (oid : Int) (tg : Tags) (w : List Char),
    Event.write t oid tg w ∈ (emitLoop enable fmt roads rid g tags).1 →
    oid = rid ∧ w ∈ g.map Prod.fst ∧ (t = TableId.t_poly ↔ isPolyWkt w = true)
      ∧ t ≠ TableId.t_point := by
  induction g with
  | nil => intro tags t oid tg w h; simp [emitLoop] at h
  | cons hd rest ih =>
    obtain ⟨w0, a0⟩ := hd
    intro tags t oid tg w h
    by_cases h0 : w0 = []
    · rw [emitLoop, if_pos h0] at h
      have := ih tags t oid tg w h
      exact ⟨this.1, by simp [this.2.1], this.2.2⟩
    · by_cases hp : isPolyWkt w0 = true
      · rw [emitLoop, if_neg h0, if_pos hp] at h
        rcases List.mem_cons.mp h with heq | hrest
        · obtain ⟨ht, hoid, htg, hw⟩ := Event.write.inj heq.symm
          subst ht hoid hw
          simp [hp]
        · have := ih _ t oid tg w hrest
          exact ⟨this.1, by simp [this.2.1], this.2.2⟩
      · rw [emitLoop, if_neg h0, if_neg (by simpa using hp)] at h
        rcases List.mem_cons.mp h with heq | hrest
        · obtain ⟨ht, hoid, htg, hw⟩ := Event.write.inj heq.symm
          subst ht hoid hw
          simp [hp]
        · rcases List.mem_append.mp hrest with hroad | htl
          · by_cases hr : roads = true
            · rw [if_pos hr] at hroad
              rcases List.mem_singleton.mp hroad |>.symm |> Event.write.inj with ⟨ht, hoid, htg, hw⟩
              subst ht hoid hw
              simp [hp]
            · rw [if_neg hr] at hroad
              simp at hroad
          · have := ih tags t oid tg w htl
            exact ⟨this.1, by simp [this.2.1], this.2.2⟩

theorem emitLoop_all_writes (enable : Bool) (fmt : ℚ → List Char) (roads : Bool) (rid : Int)
    (g : List (List Char × ℚ)) :
    ∀ (tags : Tags) (ev : Event), ev ∈ (emitLoop enable fmt roads rid g tags).1 →
    ∃ t oid tg w, ev = Event.write t oid tg w := by
  induction g with
  | nil => intro tags ev h; simp [emitLoop] at h
  | cons hd rest ih =>
    obtain ⟨w0, a0⟩ := hd
    intro tags ev h
    by_cases h0 : w0 = []
    · rw [emitLoop, if_pos h0] at h
      exact ih tags ev h
    · by_cases hp : isPolyWkt w0 = true
      · rw [emitLoop, if_neg h0, if_pos hp] at h
        rcases List.mem_cons.mp h with heq | hrest
        · exact ⟨_, _, _, _, heq⟩
        · exact ih _ ev hrest
      · rw [emitLoop, if_neg h0, if_neg (by simpa using hp)] at h
        rcases List.mem_cons.mp h with heq | hrest
        · exact ⟨_, _, _, _, heq⟩
        · rcases List.mem_append.mp hrest with hroad | htl
          · rcases hr : roads
            · rw [hr] at hroad; simp at hroad
            · rw [hr] at hroad
              simp only [if_true] at hroad
              exact ⟨_, _, _, _, List.mem_singleton.mp hroad⟩
          · exact ih tags ev htl

theorem emitLoop_roads_iff (enable : Bool) (fmt : ℚ → List Char) (roads : Bool) (rid : Int)
    (g : List (List Char × ℚ)) :
    ∀ (tags : Tags) (oid : Int) (tg : Tags) (w : List Char),
    (Event.write .t_roads oid tg w ∈ (emitLoop enable fmt roads rid g tags).1
      ↔ (roads = true ∧ Event.write .t_line oid tg w ∈ (emitLoop enable fmt roads rid g tags).1)) := by
  induction g with
  | nil => intro tags oid tg w; simp [emitLoop]
  | cons hd rest ih =>
    obtain ⟨w0, a0⟩ := hd
    intro tags oid tg w
    by_cases h0 : w0 = []
    · rw [emitLoop, if_pos h0]
      exact ih tags oid tg w
    · by_cases hp : isPolyWkt w0 = true
      · rw [emitLoop, if_neg h0, if_pos hp]
        simp only [List.mem_cons]
        constructor
        · rintro (heq | hrest)
          · exact absurd (Event.write.inj heq.symm).1 (by simp)
          · have := (ih _ oid tg w).mp hrest
            exact ⟨this.1, Or.inr this.2⟩
        · rintro ⟨hr, heq | hrest⟩
          · exact absurd (Event.write.inj heq.symm).1 (by simp)
          · exact Or.inr ((ih _ oid tg w).mpr ⟨hr, hrest⟩)
      · rw [emitLoop, if_neg h0, if_neg (by simpa using hp)]
        simp only [List.mem_cons, List.mem_append]
        constructor
        · rintro (heq | hroad | htl)
          · exact absurd (Event.write.inj heq.symm).1 (by simp)
          · rcases hr : roads
            · rw [hr] at hroad; simp at hroad
            · rw [hr] at hroad
              simp only [if_true] at hroad
              obtain ⟨_, hoid, htg, hw⟩ := Event.write.inj (List.mem_singleton.mp hroad).symm
              subst hoid hw
              exact ⟨rfl, Or.inl (by rw [htg])⟩
          · have := (ih tags oid tg w).mp htl
            exact ⟨this.1, Or.inr (Or.inr this.2)⟩
        · rintro ⟨hr, heq | hroad | htl⟩
          · obtain ⟨_, hoid, htg, hw⟩ := Event.write.inj heq.symm
            subst hoid hw
            exact Or.inr (Or.inl (by rw [hr, htg]; simp))
          · rw [hr] at hroad
            simp only [if_true, List.mem_singleton] at hroad
            exact absurd (Event.write.inj hroad).1 (by simp)
          · exact Or.inr (Or.inr ((ih tags oid tg w).mpr ⟨hr, htl⟩))

theorem boundaryLoop_write (enable : Bool) (fmt : ℚ → List Char) (id : Int)
    (g : List (List Char × ℚ)) :
    ∀ (tags : Tags) (ev : Event), ev ∈ (boundaryLoop enable fmt id g tags).1 →
    ∃ tg w, ev = Event.write .t_poly (-id) tg w ∧ isPolyWkt w = true := by
  induction g with
  | nil => intro tags ev h; simp [boundaryLoop] at h
  | cons hd rest ih =>
    obtain ⟨w0, a0⟩ := hd
    intro tags ev h
    by_cases h0 : w0 = []
    · rw [boundaryLoop, if_pos h0] at h
      exact ih tags ev h
    · by_cases hp : isPolyWkt w0 = true
      · rw [boundaryLoop, if_neg h0, if_pos hp] at h
        rcases List.mem_cons.mp h with heq | hrest
        · exact ⟨_, _, heq, hp⟩
        · exact ih _ ev hrest
      · rw [boundaryLoop, if_neg h0, if_neg (by simpa using hp)] at h
        exact ih tags ev h

theorem delete_way_trackdel (o : ModeOpts) (m : Mid) (x : Int) :
    ∀ ev ∈ pgsql_delete_way_from_output o m x, isTrackOrDel ev = true := by
  intro ev h
  rw [pgsql_delete_way_from_output] at h
  split at h
  · simp at h
  split at h
  · simp at h
  rcases List.mem_append.mp h with h1 | h2
  · rcases List.mem_append.mp h1 with h3 | h4
    · simp only [List.mem_cons, List.not_mem_nil, or_false] at h3
      rcases h3 with h5 | h5 | h5 | h5 <;> subst h5 <;> rfl
    · split at h4
      · simp only [List.mem_singleton] at h4
        subst h4
        rfl
      · simp at h4
  · split at h2
    · simp only [List.mem_singleton] at h2
      subst h2
      rfl
    · simp at h2

theorem delete_way_no_write (o : ModeOpts) (m : Mid) (x : Int)
    (t : TableId) (oid : Int) (tg : Tags) (w : List Char) :
    Event.write t oid tg w ∉ pgsql_delete_way_from_output o m x := by
  intro h
  have := delete_way_trackdel o m x _ h
  simp [isTrackOrDel] at this

theorem isPolyWkt_nil : isPolyWkt [] = false := by decide

theorem hasKey_addItem (tags : Tags) (k v : List Char) :
    hasKey (addItem tags k v) k = true := by
  simp [hasKey, addItem]

theorem emitLoop_way_area (enable : Bool) (fmt : ℚ → List Char) (roads : Bool) (rid : Int)
    (g : List (List Char × ℚ)) :
    ∀ (tags : Tags), hasKey tags wayAreaChars = false →
    (g.map Prod.fst).countP isPolyWkt ≤ 1 →
    ∀ (w : List Char) (a : ℚ) (tg : Tags),
      (w, a) ∈ g → isPolyWkt w = true →
      Event.write .t_poly rid tg w ∈ (emitLoop enable fmt roads rid g tags).1 →
      (hasKey tg wayAreaChars = true ↔ (enable = true ∧ 0 < a)) := by
  induction g with
  | nil => intro tags _ _ w a tg hmem; simp at hmem
  | cons hd rest ih =>
    obtain ⟨w0, a0⟩ := hd
    intro tags htags hcnt w a tg hmem hpw hev
    by_cases h0 : w0 = []
    · rw [emitLoop, if_pos h0] at hev
      have hmem' : (w, a) ∈ rest := by
        rcases List.mem_cons.mp hmem with heq | h
        · exfalso
          have hww : w = w0 := congrArg Prod.fst heq
          rw [hww, h0] at hpw
          simp [isPolyWkt_nil] at hpw
        · exact h
      have hcnt' : (rest.map Prod.fst).countP isPolyWkt ≤ 1 := by
        simp only [List.map_cons, List.countP_cons] at hcnt
        omega
      exact ih tags htags hcnt' w a tg hmem' hpw hev
    · by_cases hp : isPolyWkt w0 = true
      · have hcnt0 : (rest.map Prod.fst).countP isPolyWkt = 0 := by
          simp only [List.map_cons, List.countP_cons, hp, if_true] at hcnt
          omega
        rw [emitLoop, if_neg h0, if_pos hp] at hev
        rcases List.mem_cons.mp hev with heq | hrest
        · obtain ⟨_, _, htg, hw⟩ := Event.write.inj heq
          have ha : a = a0 := by
            rcases List.mem_cons.mp hmem with hpair | hintail
            · exact congrArg Prod.snd hpair
            · exfalso
              have hwin : w ∈ rest.map Prod.fst := by
                exact List.mem_map.mpr ⟨(w, a), hintail, rfl⟩
              have : (0 : Nat) < (rest.map Prod.fst).countP isPolyWkt :=
                List.countP_pos_iff.mpr ⟨w, hwin, hpw⟩
              omega
          subst ha htg
          by_cases hia : (decide (0 < a) && enable) = true
          · rw [if_pos hia] at *
            simp only [hasKey_addItem, true_iff]
            simp only [Bool.and_eq_true, decide_eq_true_eq] at hia
            exact ⟨hia.2, hia.1⟩
          · rw [if_neg hia]
            rw [htags]
            simp only [Bool.false_eq_true, false_iff]
            intro hcon
            exact hia (by simp [hcon.1, hcon.2])
        · exfalso
          have := emitLoop_write_mem enable fmt roads rid rest _ _ _ tg w hrest
          have hwin : w ∈ rest.map Prod.fst := this.2.1
          have : (0 : Nat) < (rest.map Prod.fst).countP isPolyWkt :=
            List.countP_pos_iff.mpr ⟨w, hwin, hpw⟩
          omega
      · rw [emitLoop, if_neg h0, if_neg (by simpa using hp)] at hev
        have hmem' : (w, a) ∈ rest := by
          rcases List.mem_cons.mp hmem with heq | h
          · exfalso
            have hww : w = w0 := congrArg Prod.fst heq
            rw [hww] at hpw
            exact hp hpw
          · exact h
        have hcnt' : (rest.map Prod.fst).countP isPolyWkt ≤ 1 := by
          simp only [List.map_cons, List.countP_cons] at hcnt
          omega
        rcases List.mem_cons.mp hev with heq | hrest
        · exact absurd (Event.write.inj heq).1 (by simp)
        · rcases List.mem_append.mp hrest with hroad | htl
          · exfalso
            rcases hr : roads
            · rw [hr] at hroad; simp at hroad
            · rw [hr] at hroad
              simp only [if_true, List.mem_singleton] at hroad
              exact absurd (Event.write.inj hroad).1 (by simp)
          · exact ih tags htags hcnt' w a tg hmem' hpw htl

/-- Claim C8 (amended): after a successful parse, enable_way_area is false iff
some scanned entry has name way_area and flag mask exactly the DELETE bit (a
way_area rule whose flags include DELETE together with other flags does not
disable it); and a polygon row's written tag list carries way_area exactly
when enable_way_area holds and that row's computed area is strictly positive
(for a build in which at most one geometry is polygon-prefixed, starting from
a tag list without way_area). -/
theorem way_area_rule :
    (∀ (lines : List (List Char)) (buf0 : List Char) (exl : List (OsmType × taginfo))
      (ewaOut : Bool),
      read_style_file lines buf0 = .ok (exl, ewaOut) →
      (ewaOut = false ↔ condWayArea (styleTrace lines buf0) = true))
    ∧ (∀ (enable : Bool) (fmt : ℚ → List Char) (roads : Bool) (rid : Int)
        (g : List (List Char × ℚ)) (tags : Tags) (w : List Char) (a : ℚ) (tg : Tags),
      hasKey tags wayAreaChars = false →
      (g.map Prod.fst).countP isPolyWkt ≤ 1 →
      (w, a) ∈ g → isPolyWkt w = true →
      Event.write .t_poly rid tg w ∈ (emitLoop enable fmt roads rid g tags).1 →
      (hasKey tg wayAreaChars = true ↔ (enable = true ∧ 0 < a))) := by
  constructor
  · intro lines buf0 exl ewaOut h
    have := read_aux_ewa lines 1 0 buf0 [] true exl ewaOut h
    simpa using this
  · intro enable fmt roads rid g tags w a tg h1 h2 h3 h4 h5
    exact emitLoop_way_area enable fmt roads rid g tags h1 h2 w a tg h3 h4 h5

/-- Claim C8 counterexample: a way_area rule carrying DELETE along with LINEAR
leaves enable_way_area true, so carrying the DELETE flag does not suffice. -/
theorem way_area_delete_linear_cex :
    read_style_file [("way way_area text delete,linear".data)] []
      = .ok ([(OsmType.way, ⟨"way_area".data, "text".data, 10⟩)], true)
    ∧ ((10 : Nat) &&& 8) = 8 := by
  constructor
  · decide
  · decide

/-- Witness for way_area_rule at concrete inputs. -/
theorem way_area_rule_witness :
    ((false = false) ↔ (condWayArea (styleTrace [("way way_area text delete".data)] []) = true))
    ∧ (hasKey [(wayAreaChars, "5".data)] wayAreaChars = true ↔ (true = true ∧ (0 : ℚ) < 1)) := by
  constructor
  · exact way_area_rule.1 [("way way_area text delete".data)] []
      [(OsmType.way, ⟨"way_area".data, "text".data, 8⟩)] false (by decide)
  · exact way_area_rule.2 true (fun _ => ("5".data)) false 7 [(("POLYGON".data), 1)] []
      ("POLYGON".data) 1 [(wayAreaChars, "5".data)]
      (by decide) (by decide) (by decide) (by decide) (by decide)

/- ### Supersession lemmas -/

theorem supersede_eq_spec (o : ModeOpts) (m : Mid) :
    ∀ (cs : List Nat) (ss : List Bool) (xs : List Int),
    supersede o m cs ss xs = supersedeSpec o m cs ss xs := by
  intro cs
  induction cs with
  | nil => intro ss xs; simp [supersede, supersedeSpec]
  | cons c cs ih =>
    intro ss xs
    cases ss with
    | nil => simp [supersede, supersedeSpec]
    | cons s ss =>
      cases xs with
      | nil => simp [supersede, supersedeSpec]
      | cons x xs =>
        by_cases hc : c = 0
        · simp [supersede, supersedeSpec, hc]
        · rw [supersede, if_neg hc]
          rw [ih ss xs]
          simp [supersedeSpec, hc]

theorem supersede_trackdel (o : ModeOpts) (m : Mid) :
    ∀ (cs : List Nat) (ss : List Bool) (xs : List Int),
    ∀ ev ∈ supersede o m cs ss xs, isTrackOrDel ev = true := by
  intro cs
  induction cs with
  | nil => intro ss xs ev h; simp [supersede] at h
  | cons c cs ih =>
    intro ss xs ev h
    cases ss with
    | nil => simp [supersede] at h
    | cons s ss =>
      cases xs with
      | nil => simp [supersede] at h
      | cons x xs =>
        by_cases hc : c = 0
        · rw [supersede, if_pos hc] at h; simp at h
        · rw [supersede, if_neg hc] at h
          rcases List.mem_append.mp h with h1 | h2
          · rcases hs : s
            · rw [hs] at h1; simp at h1
            · rw [hs] at h1
              simp only [if_true] at h1
              rcases List.mem_cons.mp h1 with he | he
              · subst he; rfl
              · exact delete_way_trackdel o m x ev he
          · exact ih ss xs ev h2

theorem supersede_no_write (o : ModeOpts) (m : Mid) (cs : List Nat) (ss : List Bool)
    (xs : List Int) (t : TableId) (oid : Int) (tg : Tags) (w : List Char) :
    Event.write t oid tg w ∉ supersede o m cs ss xs := by
  intro h
  have := supersede_trackdel o m cs ss xs _ h
  simp [isTrackOrDel] at this

/-- Claim C3 (amended): when filter_rel_member_tags keeps the relation with
is_polygon true and the build produces at least one geometry, the tracker and
row-deletion effects of pgsql_out_relation are exactly: for every member
strictly before the first zero node count (the loop's terminator), when
flagged superseeded, a ways_done mark and the way's output-row deletion, in
member order; members at or after the first zero node count, and members not
flagged superseeded, are neither marked nor deleted. -/
theorem relation_supersession (o : ModeOpts) (m : Mid) (enable : Bool) (fmt : ℚ → List Char)
    (sup : List Bool) (mb roads : Bool) (build : Bool → ℚ → List (List Char × ℚ))
    (id : Int) (rtags : Tags) (mc : Nat) (cs : List Nat) (xs : List Int)
    (hmc : mc ≠ 0) (hg : build true (split_at o) ≠ []) :
    (pgsql_out_relation o m enable fmt ⟨some (sup, (mb, true, roads)), build⟩
        id rtags mc cs xs).filter isTrackOrDel
      = supersedeSpec o m cs sup xs := by
  rw [pgsql_out_relation]
  rw [if_neg hmc]
  simp only []
  rw [if_neg hg]
  rw [List.filter_append, List.filter_append]
  have h1 : (emitLoop enable fmt roads (-id) (build true (split_at o)) rtags).1.filter
      isTrackOrDel = [] := by
    rw [List.filter_eq_nil_iff]
    intro ev hev
    obtain ⟨t, oid, tg, w, rfl⟩ :=
      emitLoop_all_writes enable fmt roads (-id) (build true (split_at o)) rtags ev hev
    simp [isTrackOrDel]
  have h2 : (if True then supersede o m cs sup xs else []).filter isTrackOrDel
      = supersedeSpec o m cs sup xs := by
    rw [if_pos trivial]
    rw [List.filter_eq_self.mpr (supersede_trackdel o m cs sup xs)]
    exact supersede_eq_spec o m cs sup xs
  have h3 : (if mb = true then
        (boundaryLoop enable fmt id (build true (split_at o))
          (emitLoop enable fmt roads (-id) (build true (split_at o)) rtags).2).1
      else []).filter isTrackOrDel = [] := by
    rcases hmb : mb
    · simp
    · rw [if_pos rfl, List.filter_eq_nil_iff]
      intro ev hev
      obtain ⟨tg, w, rfl, _⟩ := boundaryLoop_write enable fmt id _ _ ev hev
      simp [isTrackOrDel]
  rw [h1, h3]
  simp only [List.nil_append, List.append_nil]
  exact h2

/-- Claim C3 counterexample: with make_polygon true and members (node count 0,
not superseeded) then (node count 2, superseeded, id 7), the supersession loop
stops at the first member's zero node count, so the superseeded member 7 is
never marked in ways_done (and never deleted). -/
theorem relation_supersession_cex :
    ([false, true].getD 1 false = true)
      ∧ Event.markDone 7 ∉
          pgsql_out_relation ⟨true, false, true⟩ ⟨fun _ _ => true, fun _ => []⟩ true
            (fun _ => []) ⟨some ([false, true], (false, true, false)),
              fun _ _ => [(("POLYGON".data), 1)]⟩ 99 [] 2 [0, 2, 0] [5, 7] := by
  constructor
  · rfl
  · decide

/-- Witness for relation_supersession at a concrete input. -/
theorem relation_supersession_witness :
    ((1 : Nat) ≠ 0)
      ∧ (pgsql_out_relation ⟨true, false, true⟩ ⟨fun _ _ => true, fun _ => []⟩ true
            (fun _ => []) ⟨some ([true], (false, true, false)),
              fun _ _ => [(("POLYGON".data), 1)]⟩ 42 [] 1 [3, 0] [11]).filter isTrackOrDel
          = supersedeSpec ⟨true, false, true⟩ ⟨fun _ _ => true, fun _ => []⟩ [3, 0] [true] [11] :=
  ⟨by decide,
    relation_supersession ⟨true, false, true⟩ ⟨fun _ _ => true, fun _ => []⟩ true (fun _ => [])
      [true] false false (fun _ _ => [(("POLYGON".data), 1)]) 42 [] 1 [3, 0] [11]
      (by decide) (by decide)⟩

theorem supersede_marks_of_no_delete (o : ModeOpts) (m : Mid)
    (hdel : ∀ y : Int, pgsql_delete_way_from_output o m y = []) :
    ∀ (cs : List Nat) (ss : List Bool) (xs : List Int),
    supersede o m cs ss xs = marksOnly cs ss xs := by
  intro cs
  induction cs with
  | nil => intro ss xs; simp [supersede, marksOnly]
  | cons c cs ih =>
    intro ss xs
    cases ss with
    | nil => simp [supersede, marksOnly]
    | cons s ss =>
      cases xs with
      | nil => simp [supersede, marksOnly]
      | cons x xs =>
        rw [supersede, marksOnly]
        by_cases hc : c = 0
        · rw [if_pos hc, if_pos hc]
        · rw [if_neg hc, if_neg hc, ih ss xs]
          rcases s
          · rfl
          · simp [hdel x]

/-- Claim C10: with slim off or droptemp on, pgsql_delete_way_from_output
returns at once with no COPY pause and no row deletion; hence the supersession
step of relation processing records only the ways_done marks, and way_delete
(when it returns rather than exiting for lack of slim mode) changes no output
table. -/
theorem delete_noop_modes (o : ModeOpts) (m : Mid) (id : Int)
    (cs : List Nat) (ss : List Bool) (xs : List Int)
    (h : o.slim = false ∨ o.droptemp = true) :
    pgsql_delete_way_from_output o m id = []
      ∧ supersede o m cs ss xs = marksOnly cs ss xs
      ∧ (∀ ev : List Event, way_delete o m id = .ok ev → ev = []) := by
  have hdel : ∀ y : Int, pgsql_delete_way_from_output o m y = [] := by
    intro y
    rw [pgsql_delete_way_from_output]
    rcases h with h | h
    · rw [h]; simp
    · rw [h]; rcases o.slim <;> simp
  refine ⟨hdel id, supersede_marks_of_no_delete o m hdel cs ss xs, ?_⟩
  intro ev hev
  rw [way_delete] at hev
  split at hev
  · exact absurd hev (by simp)
  · rw [hdel id] at hev
    exact (Except.ok.inj hev).symm

/-- Witness for delete_noop_modes at a concrete input. -/
theorem delete_noop_modes_witness :
    ((⟨true, true, false⟩ : ModeOpts).slim = false ∨ (⟨true, true, false⟩ : ModeOpts).droptemp = true)
      ∧ pgsql_delete_way_from_output ⟨true, true, false⟩ ⟨fun _ _ => true, fun _ => []⟩ 9 = []
      ∧ supersede ⟨true, true, false⟩ ⟨fun _ _ => true, fun _ => []⟩ [2, 0] [true] [9]
          = marksOnly [2, 0] [true] [9] :=
  ⟨Or.inr rfl,
    (delete_noop_modes ⟨true, true, false⟩ ⟨fun _ _ => true, fun _ => []⟩ 9 [2, 0] [true] [9]
      (Or.inr rfl)).1,
    (delete_noop_modes ⟨true, true, false⟩ ⟨fun _ _ => true, fun _ => []⟩ 9 [2, 0] [true] [9]
      (Or.inr rfl)).2.1⟩

/- ### pgsql_out_way / pgsql_out_relation write characterisation -/

theorem out_way_write (o : ModeOpts) (m : Mid) (enable : Bool) (fmt : ℚ → List Char)
    (wi : WayIn) (id : Int) (tags : Tags) (ex : Bool) :
    ∀ (t : TableId) (oid : Int) (tg : Tags) (w : List Char),
    Event.write t oid tg w ∈ pgsql_out_way o m enable fmt wi id tags ex →
    oid = id ∧ (t = TableId.t_poly ↔ isPolyWkt w = true) ∧ t ≠ TableId.t_point := by
  intro t oid tg w h
  rw [pgsql_out_way] at h
  rcases List.mem_append.mp h with h1 | h2
  · exfalso
    split at h1
    · rcases List.mem_append.mp h1 with hd | hm
      · exact delete_way_no_write o m id t oid tg w hd
      · obtain ⟨i, _, heq⟩ := List.mem_map.mp hm
        simp at heq
    · simp at h1
  · split at h2
    · simp at h2
    · have := emitLoop_write_mem enable fmt wi.tt.2.2 id (wi.build wi.tt.2.1 (split_at o))
        tags t oid tg w h2
      exact ⟨this.1, this.2.2⟩

theorem out_rel_write (o : ModeOpts) (m : Mid) (enable : Bool) (fmt : ℚ → List Char)
    (ri : RelIn) (id : Int) (rtags : Tags) (mc : Nat) (cs : List Nat) (xs : List Int) :
    ∀ (t : TableId) (oid : Int) (tg : Tags) (w : List Char),
    Event.write t oid tg w ∈ pgsql_out_relation o m enable fmt ri id rtags mc cs xs →
    oid = -id ∧ (t = TableId.t_poly ↔ isPolyWkt w = true) ∧ t ≠ TableId.t_point := by
  intro t oid tg w h
  rw [pgsql_out_relation] at h
  split at h
  · simp at h
  rcases hf : ri.fmtags with _ | ⟨sup, ⟨mb, mp, rd⟩⟩
  · rw [hf] at h; simp at h
  · rw [hf] at h
    simp only [] at h
    split at h
    · simp at h
    · rcases List.mem_append.mp h with h12 | h4
      · rcases List.mem_append.mp h12 with h1 | h3
        · have := emitLoop_write_mem enable fmt rd (-id) (ri.build mp (split_at o))
            rtags t oid tg w h1
          exact ⟨this.1, this.2.2⟩
        · exfalso
          split at h3
          · exact supersede_no_write o m cs sup xs t oid tg w h3
          · simp at h3
      · split at h4
        · obtain ⟨tg', w', heq, hpw⟩ := boundaryLoop_write enable fmt id _ _ _ h4
          obtain ⟨ht, hoid, htg, hw⟩ := Event.write.inj heq
          subst ht hoid hw
          exact ⟨rfl, by simp [hpw], by simp⟩
        · simp at h4

theorem out_way_roads_iff (o : ModeOpts) (m : Mid) (enable : Bool) (fmt : ℚ → List Char)
    (wi : WayIn) (id : Int) (tags : Tags) (ex : Bool) :
    ∀ (oid : Int) (tg : Tags) (w : List Char),
    (Event.write .t_roads oid tg w ∈ pgsql_out_way o m enable fmt wi id tags ex
      ↔ (wi.tt.2.2 = true
          ∧ Event.write .t_line oid tg w ∈ pgsql_out_way o m enable fmt wi id tags ex)) := by
  intro oid tg w
  have hA : ∀ (t : TableId) (tg' : Tags) (w' : List Char),
      Event.write t oid tg' w' ∉ (if ex then
        pgsql_delete_way_from_output o m id
          ++ (m.relations_using_way id).map Event.markRelPending else []) := by
    intro t tg' w' hmem
    split at hmem
    · rcases List.mem_append.mp hmem with hd | hm
      · exact delete_way_no_write o m id t oid tg' w' hd
      · obtain ⟨i, _, heq⟩ := List.mem_map.mp hm
        simp at heq
    · simp at hmem
  rcases hfil : wi.tt.1
  · rw [pgsql_out_way, hfil]
    simp only [Bool.false_eq_true, if_false, List.mem_append]
    constructor
    · rintro (h | h)
      · exact absurd h (hA _ _ _)
      · have := (emitLoop_roads_iff enable fmt wi.tt.2.2 id
          (wi.build wi.tt.2.1 (split_at o)) tags oid tg w).mp h
        exact ⟨this.1, Or.inr this.2⟩
    · rintro ⟨hr, h | h⟩
      · exact absurd h (hA _ _ _)
      · exact Or.inr ((emitLoop_roads_iff enable fmt wi.tt.2.2 id
          (wi.build wi.tt.2.1 (split_at o)) tags oid tg w).mpr ⟨hr, h⟩)
  · rw [pgsql_out_way, hfil]
    simp only [if_true, List.mem_append]
    constructor
    · rintro (h | h)
      · exact absurd h (hA _ _ _)
      · simp at h
    · rintro ⟨hr, h | h⟩
      · exact absurd h (hA _ _ _)
      · simp at h

theorem out_rel_roads_iff (o : ModeOpts) (m : Mid) (enable : Bool) (fmt : ℚ → List Char)
    (ri : RelIn) (id : Int) (rtags : Tags) (mc : Nat) (cs : List Nat) (xs : List Int) :
    ∀ (oid : Int) (tg : Tags) (w : List Char),
    (Event.write .t_roads oid tg w ∈ pgsql_out_relation o m enable fmt ri id rtags mc cs xs
      ↔ (relRoads ri = true
          ∧ Event.write .t_line oid tg w ∈ pgsql_out_relation o m enable fmt ri id rtags mc cs xs)) := by
  intro oid tg w
  rw [pgsql_out_relation]
  split
  · simp
  rcases hf : ri.fmtags with _ | ⟨sup, ⟨mb, mp, rd⟩⟩
  · simp
  · simp only []
    have hrd : relRoads ri = rd := by rw [relRoads, hf]
    split
    · simp
    · have hSup : ∀ (t : TableId) (tg' : Tags) (w' : List Char),
          Event.write t oid tg' w' ∉ (if mp = true then supersede o m cs sup xs else []) := by
        intro t tg' w' h3
        split at h3
        · exact supersede_no_write o m cs sup xs t oid tg' w' h3
        · simp at h3
      have hBnd : ∀ (t : TableId) (tg' : Tags) (w' : List Char), t ≠ TableId.t_poly →
          Event.write t oid tg' w' ∉
            (if mb = true then (boundaryLoop enable fmt id (ri.build true (split_at o))
                (emitLoop enable fmt rd (-id) (ri.build mp (split_at o)) rtags).2).1
              else []) := by
        intro t tg' w' hnp h4
        split at h4
        · obtain ⟨tg2, w2, heq, _⟩ := boundaryLoop_write enable fmt id _ _ _ h4
          exact hnp (Event.write.inj heq).1
        · simp at h4
      simp only [List.mem_append]
      rw [hrd]
      constructor
      · rintro ((h | h) | h)
        · have := (emitLoop_roads_iff enable fmt rd (-id)
            (ri.build mp (split_at o)) rtags oid tg w).mp h
          exact ⟨this.1, Or.inl (Or.inl this.2)⟩
        · exact absurd h (hSup _ _ _)
        · exact absurd h (hBnd _ _ _ (by simp))
      · rintro ⟨hr, (h | h) | h⟩
        · exact Or.inl (Or.inl ((emitLoop_roads_iff enable fmt rd (-id)
            (ri.build mp (split_at o)) rtags oid tg w).mpr ⟨hr, h⟩))
        · exact absurd h (hSup _ _ _)
        · exact absurd h (hBnd _ _ _ (by simp))

/-- Claim C4: every row emitted by way or relation processing goes to the
table its WKT prefix selects, decided after the build: a row lands in the
polygon table iff its WKT starts with POLYGON or MULTIPOLYGON, never in the
point table, and a roads-table row exists exactly when the roads flag is set
and the same geometry's line-table row exists. -/
theorem wkt_classification (o : ModeOpts) (m : Mid) (enable : Bool) (fmt : ℚ → List Char)
    (wi : WayIn) (ri : RelIn) (wid rid : Int) (wtags rtags : Tags) (ex : Bool)
    (mc : Nat) (cs : List Nat) (xs : List Int) :
    (∀ (t : TableId) (oid : Int) (tg : Tags) (w : List Char),
      (Event.write t oid tg w ∈ pgsql_out_way o m enable fmt wi wid wtags ex
        ∨ Event.write t oid tg w ∈ pgsql_out_relation o m enable fmt ri rid rtags mc cs xs) →
      ((t = TableId.t_poly ↔ isPolyWkt w = true) ∧ t ≠ TableId.t_point))
    ∧ (∀ (oid : Int) (tg : Tags) (w : List Char),
      Event.write .t_roads oid tg w ∈ pgsql_out_way o m enable fmt wi wid wtags ex
        ↔ (wi.tt.2.2 = true
            ∧ Event.write .t_line oid tg w ∈ pgsql_out_way o m enable fmt wi wid wtags ex))
    ∧ (∀ (oid : Int) (tg : Tags) (w : List Char),
      Event.write .t_roads oid tg w ∈ pgsql_out_relation o m enable fmt ri rid rtags mc cs xs
        ↔ (relRoads ri = true
            ∧ Event.write .t_line oid tg w
                ∈ pgsql_out_relation o m enable fmt ri rid rtags mc cs xs)) := by
  refine ⟨?_, out_way_roads_iff o m enable fmt wi wid wtags ex,
    out_rel_roads_iff o m enable fmt ri rid rtags mc cs xs⟩
  intro t oid tg w h
  rcases h with h | h
  · exact (out_way_write o m enable fmt wi wid wtags ex t oid tg w h).2
  · exact (out_rel_write o m enable fmt ri rid rtags mc cs xs t oid tg w h).2

/-- Witness for wkt_classification at a concrete input. -/
theorem wkt_classification_witness :
    ((TableId.t_line = TableId.t_poly ↔ isPolyWkt ("LINESTRING".data) = true)
      ∧ TableId.t_line ≠ TableId.t_point)
    ∧ (Event.write .t_roads 5 [] ("LINESTRING".data)
        ∈ pgsql_out_way ⟨true, false, true⟩ ⟨fun _ _ => true, fun _ => []⟩ false (fun _ => [])
            ⟨(false, false, true), fun _ _ => [(("LINESTRING".data), 1)]⟩ 5 [] false
        ↔ (((false, false, true) : Bool × Bool × Bool).2.2 = true
            ∧ Event.write .t_line 5 [] ("LINESTRING".data)
              ∈ pgsql_out_way ⟨true, false, true⟩ ⟨fun _ _ => true, fun _ => []⟩ false
                  (fun _ => []) ⟨(false, false, true), fun _ _ => [(("LINESTRING".data), 1)]⟩
                  5 [] false)) :=
  ⟨(wkt_classification ⟨true, false, true⟩ ⟨fun _ _ => true, fun _ => []⟩ false (fun _ => [])
      ⟨(false, false, true), fun _ _ => [(("LINESTRING".data), 1)]⟩
      ⟨some ([true], (false, true, false)), fun _ _ => [(("POLYGON".data), 1)]⟩ 5 99 [] [] false
      1 [2, 0] [11]).1 .t_line 5 [] ("LINESTRING".data) (Or.inl (by decide)),
    (wkt_classification ⟨true, false, true⟩ ⟨fun _ _ => true, fun _ => []⟩ false (fun _ => [])
      ⟨(false, false, true), fun _ _ => [(("LINESTRING".data), 1)]⟩
      ⟨some ([true], (false, true, false)), fun _ _ => [(("POLYGON".data), 1)]⟩ 5 99 [] [] false
      1 [2, 0] [11]).2.1 5 [] ("LINESTRING".data)⟩

/-- Claim C5: every row written by relation processing carries osm_id equal to
the negation of the relation's positive OSM id (hence negative), and every row
written by way processing carries the way's positive OSM id; the two key
spaces are sign-disjoint. -/
theorem osm_id_sign (o : ModeOpts) (m : Mid) (enable : Bool) (fmt : ℚ → List Char)
    (wi : WayIn) (ri : RelIn) (wid rid : Int) (wtags rtags : Tags) (ex : Bool)
    (mc : Nat) (cs : List Nat) (xs : List Int)
    (hw : 0 < wid) (hr : 0 < rid) :
    (∀ (t : TableId) (oid : Int) (tg : Tags) (w : List Char),
      Event.write t oid tg w ∈ pgsql_out_way o m enable fmt wi wid wtags ex →
      oid = wid ∧ 0 < oid)
    ∧ (∀ (t : TableId) (oid : Int) (tg : Tags) (w : List Char),
      Event.write t oid tg w ∈ pgsql_out_relation o m enable fmt ri rid rtags mc cs xs →
      oid = -rid ∧ oid < 0) := by
  constructor
  · intro t oid tg w h
    have := (out_way_write o m enable fmt wi wid wtags ex t oid tg w h).1
    exact ⟨this, this ▸ hw⟩
  · intro t oid tg w h
    have := (out_rel_write o m enable fmt ri rid rtags mc cs xs t oid tg w h).1
    refine ⟨this, ?_⟩
    rw [this]
    omega

/-- Witness for osm_id_sign at a concrete input. -/
theorem osm_id_sign_witness :
    (((5 : Int) = 5 ∧ (0 : Int) < 5) ∧ ((-99 : Int) = -99 ∧ (-99 : Int) < 0)) :=
  ⟨(osm_id_sign ⟨true, false, true⟩ ⟨fun _ _ => true, fun _ => []⟩ false (fun _ => [])
      ⟨(false, false, true), fun _ _ => [(("LINESTRING".data), 1)]⟩
      ⟨some ([true], (false, true, false)), fun _ _ => [(("POLYGON".data), 1)]⟩ 5 99 [] [] false
      1 [2, 0] [11] (by decide) (by decide)).1 .t_line 5 [] ("LINESTRING".data) (by decide),
    (osm_id_sign ⟨true, false, true⟩ ⟨fun _ _ => true, fun _ => []⟩ false (fun _ => [])
      ⟨(false, false, true), fun _ _ => [(("LINESTRING".data), 1)]⟩
      ⟨some ([true], (false, true, false)), fun _ _ => [(("POLYGON".data), 1)]⟩ 5 99 [] [] false
      1 [2, 0] [11] (by decide) (by decide)).2 .t_poly (-99) [] ("POLYGON".data) (by decide)⟩

/-- Claim C6: way_add with a kept polygon way only marks the id pending and
emits nothing; with a kept linear way it resolves the node list through the
middle and emits via the emission loop, whose rows (for a linestring build)
all go to the line table, plus the roads table exactly when the roads flag is
set; with a dropped way it neither marks nor emits anything. -/
theorem way_add_cases (o : ModeOpts) (m : Mid) (enable : Bool) (fmt : ℚ → List Char)
    (tt : Bool × Bool × Bool) (build : Bool → ℚ → List (List Char × ℚ))
    (id : Int) (nds : List Int) (tags : Tags) :
    (tt.1 = false → tt.2.1 = true →
        way_add o m enable fmt tt build id nds tags = [Event.markWayPending id])
    ∧ (tt.1 = true → way_add o m enable fmt tt build id nds tags = [])
    ∧ (tt.1 = false → tt.2.1 = false →
        (way_add o m enable fmt tt build id nds tags
            = Event.resolveNodes nds
                :: (emitLoop enable fmt tt.2.2 id (build false (split_at o)) tags).1)
          ∧ ((∀ p ∈ build false (split_at o), isPolyWkt p.1 = false) →
              ∀ (t : TableId) (oid : Int) (tg : Tags) (w : List Char),
              Event.write t oid tg w ∈ way_add o m enable fmt tt build id nds tags →
              (t = TableId.t_line ∨ (t = TableId.t_roads ∧ tt.2.2 = true)))) := by
  refine ⟨?_, ?_, ?_⟩
  · intro h1 h2
    simp [way_add, h1, h2]
  · intro h1
    simp [way_add, h1]
  · intro h1 h2
    have heq : way_add o m enable fmt tt build id nds tags
        = Event.resolveNodes nds
            :: (emitLoop enable fmt tt.2.2 id (build false (split_at o)) tags).1 := by
      rw [way_add, pgsql_out_way]
      simp [h1, h2]
    refine ⟨heq, ?_⟩
    intro hL t oid tg w hmem
    rw [heq] at hmem
    rcases List.mem_cons.mp hmem with habs | hloop
    · simp at habs
    · have hmain := emitLoop_write_mem enable fmt tt.2.2 id (build false (split_at o))
        tags t oid tg w hloop
      have hwp : isPolyWkt w = false := by
        obtain ⟨p, hp, hpe⟩ := List.mem_map.mp hmain.2.1
        rw [← hpe]
        exact hL p hp
      rcases t with _ | _ | _ | _
      · exact absurd rfl hmain.2.2.2
      · exact Or.inl rfl
      · rw [hwp] at hmain
        simp at hmain
      · refine Or.inr ⟨rfl, ?_⟩
        exact ((emitLoop_roads_iff enable fmt tt.2.2 id (build false (split_at o))
          tags oid tg w).mp hloop).1

/-- Witness for way_add_cases at concrete inputs for each of the three
verdicts of the way tag filter. -/
theorem way_add_cases_witness :
    (way_add ⟨true, false, true⟩ ⟨fun _ _ => true, fun _ => []⟩ false (fun _ => [])
        (false, true, false) (fun _ _ => []) 7 [1, 2] [] = [Event.markWayPending 7])
    ∧ (way_add ⟨true, false, true⟩ ⟨fun _ _ => true, fun _ => []⟩ false (fun _ => [])
        (true, false, false) (fun _ _ => []) 8 [] [] = [])
    ∧ (way_add ⟨true, false, true⟩ ⟨fun _ _ => true, fun _ => []⟩ false (fun _ => [])
        (false, false, true) (fun _ _ => [(("LINESTRING".data), 1)]) 5 [1] []
        = Event.resolveNodes [1]
            :: (emitLoop false (fun _ => []) true 5
                ((fun (_ : Bool) (_ : ℚ) => [(("LINESTRING".data), 1)]) false
                  (split_at ⟨true, false, true⟩)) []).1) :=
  ⟨(way_add_cases ⟨true, false, true⟩ ⟨fun _ _ => true, fun _ => []⟩ false (fun _ => [])
      (false, true, false) (fun _ _ => []) 7 [1, 2] []).1 rfl rfl,
    (way_add_cases ⟨true, false, true⟩ ⟨fun _ _ => true, fun _ => []⟩ false (fun _ => [])
      (true, false, false) (fun _ _ => []) 8 [] []).2.1 rfl,
    ((way_add_cases ⟨true, false, true⟩ ⟨fun _ _ => true, fun _ => []⟩ false (fun _ => [])
      (false, false, true) (fun _ _ => [(("LINESTRING".data), 1)]) 5 [1] []).2.2 rfl rfl).1⟩

/- ### Deferred-iteration driver lemmas -/

theorem run_until_spec (procDef : Int → List Event) (bound : Option Int) :
    ∀ (pending : List Int) (nd : Option Int), (nd = none → pending = []) →
    run_internal_until procDef bound nd pending
      = (((optList nd ++ pending).takeWhile (fun d => oLtB d bound)).map
            (fun d => (d, procDef d)),
         ((optList nd ++ pending).dropWhile (fun d => oLtB d bound)).head?,
         ((optList nd ++ pending).dropWhile (fun d => oLtB d bound)).tail) := by
  intro pending
  induction pending with
  | nil =>
    intro nd hinv
    cases nd with
    | none => simp [run_internal_until, optList]
    | some d =>
      by_cases hb : oLtB d bound = true
      · simp [run_internal_until, optList, hb]
      · simp [run_internal_until, optList, hb]
  | cons x xs ih =>
    intro nd hinv
    cases nd with
    | none => exact absurd (hinv rfl) (by simp)
    | some d =>
      by_cases hb : oLtB d bound = true
      · rw [run_internal_until, if_pos hb]
        rw [ih (some x) (by simp)]
        simp [optList, List.takeWhile_cons, List.dropWhile_cons, hb]
      · rw [run_internal_until, if_neg hb]
        simp [optList, List.takeWhile_cons, List.dropWhile_cons, hb]

theorem dropWhile_head_false (p : Int → Bool) :
    ∀ (l : List Int) (x : Int) (xs : List Int), l.dropWhile p = x :: xs → p x = false := by
  intro l
  induction l with
  | nil => intro x xs h; simp at h
  | cons a as ih =>
    intro x xs h
    rw [List.dropWhile_cons] at h
    split at h
    · exact ih x xs h
    · next hpa =>
      obtain ⟨h1, _⟩ := List.cons.inj h
      rw [← h1]
      simpa using hpa

theorem map_fst_pair (procDef : Int → List Event) (l : List Int) :
    l.map (Prod.fst ∘ fun d => (d, procDef d)) = l := by
  induction l with
  | nil => rfl
  | cons a as ih => simp only [List.map_cons, Function.comp_apply, ih]

theorem cb_loop_visits (procDef procUp : Int → List Event) :
    ∀ (us : List Int) (nd : Option Int) (pending : List Int), (nd = none → pending = []) →
    (cb_loop procDef procUp us nd pending).map Prod.fst
      = mergeAux us (optList nd ++ pending) := by
  intro us
  induction us with
  | nil =>
    intro nd pending hinv
    rw [cb_loop, run_until_spec procDef none pending nd hinv]
    simp only [List.map_map]
    have h1 : ((optList nd ++ pending).takeWhile (fun d => oLtB d none))
        = optList nd ++ pending := by
      rw [List.takeWhile_eq_self_iff]
      intro d _
      rfl
    rw [mergeAux, h1]
    simp only [List.map_append]
    rw [map_fst_pair, map_fst_pair]
  | cons u us ih =>
    intro nd pending hinv
    rw [cb_loop, run_until_spec procDef (some u) pending nd hinv]
    simp only []
    set l := optList nd ++ pending with hl
    have hpeq : (fun d => oLtB d (some u)) = (fun x : Int => decide (x < u)) := by
      funext d
      rfl
    rcases hrest : l.dropWhile (fun d => oLtB d (some u)) with _ | ⟨r0, rs⟩
    · rw [List.map_append]
      have hrec := ih none [] (fun _ => rfl)
      rw [mergeAux]
      simp only [← hpeq]
      rw [hrest]
      simp only [List.head?_nil, List.tail_nil]
      have : (some (α := Int) u ≠ none) := by simp
      rw [if_neg (by simp)]
      simp only [List.map_map, List.map_cons]
      rw [hrec]
      simp only [mergeAux, optList, List.nil_append, List.append_nil]
      rw [map_fst_pair]
    · rw [List.map_append]
      rw [mergeAux]
      simp only [← hpeq]
      rw [hrest]
      simp only [List.head?_cons, List.tail_cons, List.map_map, List.map_cons]
      by_cases hru : r0 = u
      · rw [if_pos (by rw [hru]), hru]
        simp only [if_pos rfl]
        have hrec := ih (pop_mark rs).1 (pop_mark rs).2 (by
          cases rs with
          | nil => intro _; rfl
          | cons b bs => intro hb; simp [pop_mark] at hb)
        have hcat : optList (pop_mark rs).1 ++ (pop_mark rs).2 = rs := by
          cases rs with
          | nil => rfl
          | cons b bs => rfl
        rw [hcat] at hrec
        rw [hrec]
        rw [map_fst_pair]
        simp
      · rw [if_neg (by simpa using hru)]
        simp only [if_neg hru]
        have hrec := ih (some r0) rs (by simp)
        have hcat : optList (some r0) ++ rs = r0 :: rs := rfl
        rw [hcat] at hrec
        rw [hrec]
        rw [map_fst_pair]

theorem mergeAux_cons_of_drop_nil (u : Int) (us l : List Int)
    (h : l.dropWhile (fun x : Int => decide (x < u)) = []) :
    mergeAux (u :: us) l
      = l.takeWhile (fun x : Int => decide (x < u)) ++ u :: mergeAux us [] := by
  rw [mergeAux, h]

theorem mergeAux_cons_of_drop_cons (u : Int) (us l : List Int) (r0 : Int) (rs : List Int)
    (h : l.dropWhile (fun x : Int => decide (x < u)) = r0 :: rs) :
    mergeAux (u :: us) l
      = l.takeWhile (fun x : Int => decide (x < u))
          ++ u :: mergeAux us (if r0 = u then rs else r0 :: rs) := by
  rw [mergeAux, h]

theorem mergeAux_mem : ∀ (us l : List Int) (x : Int),
    x ∈ mergeAux us l ↔ (x ∈ us ∨ x ∈ l) := by
  intro us
  induction us with
  | nil => intro l x; simp [mergeAux]
  | cons u us ih =>
    intro l x
    have h0 : l.takeWhile (fun z : Int => decide (z < u))
        ++ l.dropWhile (fun z : Int => decide (z < u)) = l :=
      List.takeWhile_append_dropWhile _ _
    rcases hr : l.dropWhile (fun z : Int => decide (z < u)) with _ | ⟨r0, rs⟩
    · rw [hr, List.append_nil] at h0
      rw [mergeAux_cons_of_drop_nil u us l hr]
      simp only [List.mem_append, List.mem_cons, ih, List.not_mem_nil, or_false]
      rw [h0]
      tauto
    · rw [hr] at h0
      have hsplit : (x ∈ l) ↔ (x ∈ l.takeWhile (fun z : Int => decide (z < u))
          ∨ x = r0 ∨ x ∈ rs) := by
        conv_lhs => rw [← h0]
        simp [List.mem_append]
      rw [mergeAux_cons_of_drop_cons u us l r0 rs hr]
      by_cases hru : r0 = u
      · rw [if_pos hru]
        simp only [List.mem_append, List.mem_cons, ih, hsplit, hru]
        tauto
      · rw [if_neg hru]
        simp only [List.mem_append, List.mem_cons, ih, hsplit]
        tauto

theorem mergeAux_sorted : ∀ (us l : List Int), us.Sorted (· < ·) → l.Sorted (· < ·) →
    (mergeAux us l).Sorted (· < ·) := by
  intro us
  induction us with
  | nil => intro l _ hl; simpa [mergeAux] using hl
  | cons u us ih =>
    intro l hus hl
    have hus' := (List.sorted_cons.mp hus).2
    have huslt := (List.sorted_cons.mp hus).1
    have hpre : (l.takeWhile (fun y : Int => decide (y < u))).Sorted (· < ·) :=
      hl.sublist (List.takeWhile_sublist _)
    have hprelt : ∀ a ∈ l.takeWhile (fun y : Int => decide (y < u)), a < u := by
      intro a ha
      simpa using List.mem_takeWhile_imp ha
    have hrest : (l.dropWhile (fun y : Int => decide (y < u))).Sorted (· < ·) :=
      hl.sublist (List.dropWhile_sublist _)
    rcases hr : l.dropWhile (fun y : Int => decide (y < u)) with _ | ⟨r0, rs⟩
    · rw [mergeAux_cons_of_drop_nil u us l hr]
      have hms : (mergeAux us ([] : List Int)).Sorted (· < ·) := ih [] hus' List.sorted_nil
      refine List.pairwise_append.mpr ⟨hpre, ?_, ?_⟩
      · refine List.pairwise_cons.mpr ⟨?_, hms⟩
        intro a ha
        rcases (mergeAux_mem us [] a).mp ha with hau | habs
        · exact huslt a hau
        · simp at habs
      · intro a ha b hb
        have halt := hprelt a ha
        rcases List.mem_cons.mp hb with hbu | hbm
        · omega
        · rcases (mergeAux_mem us [] b).mp hbm with hbu | habs
          · have := huslt b hbu
            omega
          · simp at habs
    · rw [hr] at hrest
      have hr0 : ¬(r0 < u) := by
        have := dropWhile_head_false (fun y : Int => decide (y < u)) l r0 rs hr
        simpa using this
      have hrs : rs.Sorted (· < ·) := (List.sorted_cons.mp hrest).2
      have hr0lt := (List.sorted_cons.mp hrest).1
      rw [mergeAux_cons_of_drop_cons u us l r0 rs hr]
      have hfacts : ((if r0 = u then rs else r0 :: rs) : List Int).Sorted (· < ·)
          ∧ ∀ a ∈ (if r0 = u then rs else r0 :: rs), u < a := by
        by_cases hru : r0 = u
        · rw [if_pos hru]
          refine ⟨hrs, ?_⟩
          intro a ha
          have := hr0lt a ha
          omega
        · rw [if_neg hru]
          refine ⟨hrest, ?_⟩
          intro a ha
          rcases List.mem_cons.mp ha with h1 | hsx
          · omega
          · have := hr0lt a hsx
            omega
      have hms := ih _ hus' hfacts.1
      refine List.pairwise_append.mpr ⟨hpre, ?_, ?_⟩
      · refine List.pairwise_cons.mpr ⟨?_, hms⟩
        intro a ha
        rcases (mergeAux_mem us _ a).mp ha with hau | har
        · exact huslt a hau
        · exact hfacts.2 a har
      · intro a ha b hb
        have halt := hprelt a ha
        rcases List.mem_cons.mp hb with hbu | hbm
        · omega
        · rcases (mergeAux_mem us _ b).mp hbm with hbu | hbr
          · have := huslt b hbu
            omega
          · have := hfacts.2 b hbr
            omega

theorem deferred_merge_ordering (procDef procUp : Int → List Event) (u p : List Int)
    (hu : u.Sorted (· < ·)) (hp : p.Sorted (· < ·)) :
    (cb_visits procDef procUp u p).Sorted (· < ·)
      ∧ ∀ x : Int, (x ∈ cb_visits procDef procUp u p ↔ (x ∈ u ∨ x ∈ p)) := by
  have hvis : cb_visits procDef procUp u p = mergeAux u p := by
    rw [cb_visits, cb_driver]
    cases p with
    | nil => exact cb_loop_visits procDef procUp u none [] (fun _ => rfl)
    | cons a as =>
      have := cb_loop_visits procDef procUp u (some a) as (by simp)
      simpa [pop_mark, optList] using this
  rw [hvis]
  exact ⟨mergeAux_sorted u p hu hp, fun x => mergeAux_mem u p x⟩

/-- Witness for deferred_merge_ordering at a concrete input. -/
theorem deferred_merge_ordering_witness :
    (cb_visits (fun _ => []) (fun _ => []) [2, 5] [1, 5, 9]).Sorted (· < ·)
      ∧ ((9 : Int) ∈ cb_visits (fun _ => []) (fun _ => []) [2, 5] [1, 5, 9]
          ↔ ((9 : Int) ∈ ([2, 5] : List Int) ∨ (9 : Int) ∈ ([1, 5, 9] : List Int))) :=
  ⟨(deferred_merge_ordering (fun _ => []) (fun _ => []) [2, 5] [1, 5, 9]
      (by decide) (by decide)).1,
    (deferred_merge_ordering (fun _ => []) (fun _ => []) [2, 5] [1, 5, 9]
      (by decide) (by decide)).2 9⟩

theorem run_until_pairs (procDef : Int → List Event) (bound : Option Int) :
    ∀ (pending : List Int) (nd : Option Int) (pr : Int × List Event),
    pr ∈ (run_internal_until procDef bound nd pending).1 → pr.2 = procDef pr.1 := by
  intro pending
  induction pending with
  | nil =>
    intro nd pr h
    cases nd with
    | none => simp [run_internal_until] at h
    | some d =>
      rw [run_internal_until] at h
      split at h
      · rcases List.mem_singleton.mp h with rfl
        rfl
      · simp at h
  | cons x xs ih =>
    intro nd pr h
    cases nd with
    | none => simp [run_internal_until] at h
    | some d =>
      rw [run_internal_until] at h
      split at h
      · rcases List.mem_cons.mp h with rfl | hrest
        · rfl
        · exact ih (some x) pr hrest
      · simp at h

theorem cb_loop_pairs (procDef procUp : Int → List Event) :
    ∀ (us : List Int) (nd : Option Int) (pending : List Int) (pr : Int × List Event),
    pr ∈ cb_loop procDef procUp us nd pending →
    pr.2 = procDef pr.1 ∨ pr.2 = procUp pr.1 := by
  intro us
  induction us with
  | nil =>
    intro nd pending pr h
    rw [cb_loop] at h
    exact Or.inl (run_until_pairs procDef none pending nd pr h)
  | cons u us ih =>
    intro nd pending pr h
    rw [cb_loop] at h
    rcases List.mem_append.mp h with h1 | h2
    · exact Or.inl (run_until_pairs procDef (some u) pending nd pr h1)
    · rcases List.mem_cons.mp h2 with rfl | hrest
      · exact Or.inr rfl
      · exact ih _ _ pr hrest

/-- Claim C2: a way id marked in ways_done is suppressed on both paths of the
ways deferred iteration — operator() and run_internal_until each consult
is_marked before pgsql_out_way — so no row bearing that id is written to any
table by the pass. -/
theorem ways_done_suppression (e : WayPassEnv) (ex : Bool) (u p : List Int) (d : Int)
    (h : e.done d = true) :
    ∀ (t : TableId) (tg : Tags) (w : List Char),
    Event.write t d tg w ∉ way_pass_events e ex u p := by
  intro t tg w hmem
  rw [way_pass_events] at hmem
  obtain ⟨pr, hpr, hev⟩ := List.mem_flatMap.mp hmem
  rw [cb_driver] at hpr
  have hsrc := cb_loop_pairs (wayProcDef e ex) (wayProcUp e ex) u _ _ pr hpr
  rcases hsrc with hs | hs
  · rw [hs, wayProcDef] at hev
    split at hev
    · simp at hev
    · split at hev
      · simp at hev
      · next hdone =>
        have hid := (out_way_write e.o e.m e.enable e.fmt _ pr.1 _ ex t d tg w hev).1
        rw [hid] at h
        exact hdone h
  · rw [hs, wayProcUp] at hev
    split at hev
    · simp at hev
    · next hdone =>
      have hid := (out_way_write e.o e.m e.enable e.fmt (e.upWays pr.1).1 pr.1
        (e.upWays pr.1).2 ex t d tg w hev).1
      rw [hid] at h
      exact hdone h

/-- Witness for ways_done_suppression at a concrete input. -/
theorem ways_done_suppression_witness :
    ((⟨⟨true, false, true⟩, ⟨fun _ _ => true, fun _ => []⟩, false, fun _ => [],
        fun i => decide (i = 3), fun _ => none,
        fun _ => (⟨(false, false, false), fun _ _ => [(("LINESTRING".data), 1)]⟩, [])⟩
          : WayPassEnv).done 3 = true)
      ∧ Event.write .t_line 3 [] ("LINESTRING".data)
          ∉ way_pass_events
              ⟨⟨true, false, true⟩, ⟨fun _ _ => true, fun _ => []⟩, false, fun _ => [],
                fun i => decide (i = 3), fun _ => none,
                fun _ => (⟨(false, false, false), fun _ _ => [(("LINESTRING".data), 1)]⟩, [])⟩
              false [3] [2] :=
  ⟨by decide,
    ways_done_suppression
      ⟨⟨true, false, true⟩, ⟨fun _ _ => true, fun _ => []⟩, false, fun _ => [],
        fun i => decide (i = 3), fun _ => none,
        fun _ => (⟨(false, false, false), fun _ _ => [(("LINESTRING".data), 1)]⟩, [])⟩
      false [3] [2] 3 (by decide) .t_line [] ("LINESTRING".data)⟩

end OsmPgsql
